import Mathlib

/-!
Verification of the deep-research agent system: a shallow embedding of the
turn-bounded `Memory` store (`deep_research/utils/memory.py`), the agent
step loop (`deep_research/agents/agent.py`) and the tool executor
(`deep_research/tools/executor.py`), together with proofs of the
specified properties.
-/

namespace DeepResearch

/-- One entry of an assistant message's `tool_calls` list; only the `id`
and the function `name` are consulted by the verified logic. -/
structure ToolCall where
  id : String
  fn : String
deriving DecidableEq

/-- A conversational message (the `Msg` dict of `memory.py`): role,
content, and the optional tool fields.  An absent dict key is `none`. -/
structure Msg where
  role : String
  content : String
  tool_call_id : Option String := none
  name : Option String := none
  tool_calls : Option (List ToolCall) := none
deriving DecidableEq

/-- Audit metadata attached to a history record (`meta_full` in
`Memory._add` and the synthetic summary metadata). -/
structure RecMeta where
  who : String
  when : String
  synthetic : Bool
  kind : String
deriving DecidableEq

/-- A history record: message plus provenance metadata
(`{"msg": ..., "meta": ...}` in `memory.py`). -/
structure HRec where
  msg : Msg
  meta : RecMeta
deriving DecidableEq

/-- Fallback record used for out-of-range list reads. -/
def defaultHRec : HRec :=
  { msg := { role := "", content := "" }
    meta := { who := "", when := "", synthetic := false, kind := "" } }

/-- The state of `Memory`: configuration, audit history (`_history`) and
the model-facing message list (`_messages`). -/
structure Memory where
  keep_last_n_turns : Nat
  max_turns : Nat
  history : List HRec := []
  messages : List Msg := []
deriving DecidableEq

/-- A fresh memory with the given retention configuration. -/
def mkMemory (keep maxT : Nat) : Memory :=
  { keep_last_n_turns := keep, max_turns := maxT, history := [], messages := [] }

/-- The four role enum values of `memory.py`. -/
def roleEnum : List String := ["system", "assistant", "user", "tool"]

/-- `Memory._sanitize_for_model`: coerce unknown roles to assistant, keep
`tool_call_id` only on tool messages and `tool_calls` only on assistant
messages; `name` passes through whenever present. -/
def sanitizeForModel (m : Msg) : Msg :=
  let role := if roleEnum.contains m.role then m.role else "assistant"
  { role := role
    content := m.content
    tool_call_id := if role == "tool" then m.tool_call_id else none
    name := m.name
    tool_calls := if role == "assistant" then m.tool_calls else none }

/-- `Memory._is_real_assistant_turn_start`: a non-synthetic assistant
record. -/
def isRealAssistantTurnStart (r : HRec) : Bool :=
  r.msg.role == "assistant" && !r.meta.synthetic

/-- Indices (counting from `i`) of real assistant turn starts. -/
def assistantStartsFrom (i : Nat) : List HRec → List Nat
  | [] => []
  | r :: rest =>
    if isRealAssistantTurnStart r then i :: assistantStartsFrom (i + 1) rest
    else assistantStartsFrom (i + 1) rest

/-- `Memory._assistant_turn_starts_locked`: indices of real assistant
turn starts in the history. -/
def assistantStarts (h : List HRec) : List Nat := assistantStartsFrom 0 h

/-- `Memory._count_user_turns_locked`: the number of real assistant
turns. -/
def realTurns (h : List HRec) : Nat := (assistantStarts h).length

/-- `Memory._summarize_decision_locked`: `none` when no summarization is
needed, otherwise `some boundary`. -/
def summarizeDecision (keep maxT : Nat) (h : List HRec) : Option Nat :=
  let starts := assistantStarts h
  if starts.length ≤ maxT then none
  else if keep == 0 then some h.length
  else if starts.length < keep then none
  else
    let boundary := starts.getD (starts.length - keep) 0
    if boundary ≤ 0 then none
    else some boundary

/-- The curator fallback text substituted when the summarizer LLM call
raises (`Memory._summarize`). -/
def summaryFallback : String := "Summary unavailable due to curator error."

/-- A whitespace character for Python's `str.strip()`. -/
def isPySpace (c : Char) : Bool :=
  c == ' ' || c == '\t' || c == '\n' || c == '\r' || c == '\x0b' || c == '\x0c'

/-- Python's `str.strip()`: drop whitespace from both ends. -/
def pyStrip (s : String) : String :=
  String.mk (((s.data.dropWhile isPySpace).reverse.dropWhile isPySpace).reverse)

/-- `Memory._summarize`: wrap the curator output (or the fallback text on
failure) in the summary header.  The LLM call outcome is the
`Except`-valued argument. -/
def mkAssistantSummary (ts : String) (llmResult : Except String String) : String :=
  let summary_text :=
    match llmResult with
    | Except.ok s => pyStrip s
    | Except.error _ => summaryFallback
  "[Summary of earlier turns. Treat this as prior context only.] \n[History Summary @ "
    ++ ts ++ "]\n" ++ summary_text

/-- The prefix snapshot handed to the summarizer in `Memory._add`:
records strictly before the boundary whose role is neither system nor
user. -/
def curatorInput (h : List HRec) (boundary : Nat) : List Msg :=
  ((h.take boundary).filter
    (fun r => !(r.msg.role == "system") && !(r.msg.role == "user"))).map (fun r => r.msg)

/-- The synthetic summary record produced by the summarization rewrite in
`Memory._add`. -/
def synthRecord (ts summary : String) : HRec :=
  { msg := { role := "assistant", content := summary }
    meta := { who := "system/curator", when := ts, synthetic := true, kind := "history_summary" } }

/-- The history record built for an append in `Memory._add`. -/
def mkHRec (ts : String) (msg : Msg) (kind : String) : HRec :=
  { msg := msg
    meta := { who := msg.role, when := ts, synthetic := false, kind := kind } }

/-- `Memory._add`: append the record and its sanitized mirror, then, if
the turn budget is exceeded, atomically rewrite history as
`[first, second, synthetic summary] ++ suffix from the boundary` and
rebuild the model-facing view.  `llm` is the curator collaborator and
`ts` the current timestamp. -/
def addRec (llm : List Msg → Except String String) (ts : String)
    (m : Memory) (msg : Msg) (kind : String) : Memory :=
  let r0 := mkHRec ts msg kind
  let h1 := m.history ++ [r0]
  match summarizeDecision m.keep_last_n_turns m.max_turns h1 with
  | none => { m with history := h1, messages := m.messages ++ [sanitizeForModel msg] }
  | some b =>
    let summary := mkAssistantSummary ts (llm (curatorInput h1 b))
    let h2 := h1.take 2 ++ synthRecord ts summary :: h1.drop b
    { m with history := h2, messages := h2.map (fun r => sanitizeForModel r.msg) }

/-- One public append operation: the message together with its `kind`
tag (`user_msg`, `assistant_msg`, `assistant_tool_call`, `tool_msg`,
`system_prompt`). -/
structure AddOp where
  msg : Msg
  kind : String
deriving DecidableEq

/-- `Memory.add_system_message`. -/
def systemOp (content : String) : AddOp :=
  { msg := { role := "system", content := content }, kind := "system_prompt" }

/-- `Memory.add_user_message`. -/
def userOp (content : String) : AddOp :=
  { msg := { role := "user", content := content }, kind := "user_msg" }

/-- `Memory.add_assistant_message`. -/
def assistantOp (content : String) : AddOp :=
  { msg := { role := "assistant", content := content }, kind := "assistant_msg" }

/-- `Memory.add_assistant_message_with_tool_calls`. -/
def assistantToolCallsOp (tcs : List ToolCall) (content : String) : AddOp :=
  { msg := { role := "assistant", content := content, tool_calls := some tcs }
    kind := "assistant_tool_call" }

/-- `Memory.add_tool_message`. -/
def toolOp (content id : String) (nm : Option String) : AddOp :=
  { msg := { role := "tool", content := content, tool_call_id := some id, name := nm }
    kind := "tool_msg" }

/-- Run a sequence of appends against a memory. -/
def runAdds (llm : List Msg → Except String String) (ts : String) :
    Memory → List AddOp → Memory
  | m, [] => m
  | m, op :: ops => runAdds llm ts (addRec llm ts m op.msg op.kind) ops

/-- The records produced by a list of append operations. -/
def opsRecs (ts : String) (ops : List AddOp) : List HRec :=
  ops.map (fun op => mkHRec ts op.msg op.kind)

/-! ### Tool-call / tool-result pairing -/

/-- Does an assistant message's `tool_calls` list contain the id? -/
def tcContains (a : Msg) (id : String) : Bool :=
  match a.tool_calls with
  | some tcs => tcs.any (fun tc => tc.id == id)
  | none => false

/-- A message is acceptable after `lastA` (the most recent assistant
message, if any): a tool message must carry an id listed in the latest
assistant's `tool_calls`. -/
def toolOk (lastA : Option Msg) (m : Msg) : Bool :=
  if m.role == "tool" then
    match m.tool_call_id with
    | some id =>
      match lastA with
      | some a => tcContains a id
      | none => false
    | none => true
  else true

/-- Is there an assistant message in `prev` whose `tool_calls` mention
the id? -/
def hasMatchingAssistant (prev : List Msg) (id : String) : Bool :=
  prev.any (fun a => a.role == "assistant" && tcContains a id)

/-- Checker for the dangling-tool-result property over a model view,
threading the already-seen prefix. -/
def danglingFreeAux : List Msg → List Msg → Bool
  | _, [] => true
  | prev, m :: rest =>
    (if m.role == "tool" then
      match m.tool_call_id with
      | some id => hasMatchingAssistant prev id
      | none => true
    else true)
    && danglingFreeAux (prev ++ [m]) rest

/-- A model view is dangling-free when every tool message's
`tool_call_id` is matched by a preceding assistant `tool_calls` entry. -/
def danglingFree (msgs : List Msg) : Bool := danglingFreeAux [] msgs

/-- The most recent assistant message after scanning the records, given
the one seen so far. -/
def updLastA (lastA : Option Msg) : List HRec → Option Msg
  | [] => lastA
  | r :: rest => updLastA (if r.msg.role == "assistant" then some r.msg else lastA) rest

/-- Strong pairing invariant on a history: every tool record's id is
listed in the `tool_calls` of the *latest* preceding assistant record. -/
def lpAux (lastA : Option Msg) : List HRec → Bool
  | [] => true
  | r :: rest =>
    toolOk lastA r.msg
      && lpAux (if r.msg.role == "assistant" then some r.msg else lastA) rest

/-- The pairing invariant on a whole history. -/
def latestPaired (h : List HRec) : Bool := lpAux none h

/-- The most recent assistant message of a history. -/
def lastAssistant (h : List HRec) : Option Msg := updLastA none h

/-- An append is anchored in a memory state when, if it is a tool
message, its id is listed in the `tool_calls` of the memory's most
recent assistant message.  This is how the agent loop uses `Memory`:
each tool result directly follows the assistant message that issued
the batch. -/
def anchoredOp (m : Memory) (msg : Msg) : Bool :=
  toolOk (lastAssistant m.history) msg

/-- A run of appends is good when every append is anchored in the state
it is applied to. -/
def goodRunB (llm : List Msg → Except String String) (ts : String) :
    Memory → List AddOp → Bool
  | _, [] => true
  | m, op :: ops =>
    anchoredOp m op.msg && goodRunB llm ts (addRec llm ts m op.msg op.kind) ops

/-! ### Tool result envelopes and formatting (`executor.py`, `agent.py`) -/

/-- A tool result envelope (the result dict of `ToolExecutor`); field
defaults mirror the `.get` defaults used by
`format_tool_result_for_llm`. -/
structure Envelope where
  success : Bool := false
  tool_name : String := "unknown"
  formatted_content : String := ""
  error : Option String := none
  task_completed : Bool := false
  query : String := ""
  result_count : Nat := 0
  has_answer : Bool := false
  urls : List String := []
  successful_extractions : Nat := 0
  failed_extractions : Nat := 0
deriving DecidableEq

/-- `format_tool_result_for_llm` from `executor.py`. -/
def formatToolResultForLLM (result : Envelope) : String :=
  if !result.success then
    "Tool execution failed: " ++ result.error.getD "Unknown error"
  else if result.tool_name == "web_search" then
    let header := "Search Results for: '" ++ result.query ++ "' ("
      ++ toString result.result_count ++ " results"
    let header := if result.has_answer then header ++ ", includes AI answer" else header
    header ++ ")\n\n" ++ result.formatted_content
  else if result.tool_name == "web_extract" then
    "Content Extraction from " ++ toString result.urls.length ++ " URL(s) ("
      ++ toString result.successful_extractions ++ " successful, "
      ++ toString result.failed_extractions ++ " failed)\n\n"
      ++ result.formatted_content
  else
    result.formatted_content

/-- The outcome of one tool execution as observed through
`asyncio.gather(..., return_exceptions=True)`: an envelope or a raised
exception (its text). -/
inductive ToolOutcome where
  | ok : Envelope → ToolOutcome
  | exn : String → ToolOutcome
deriving DecidableEq

/-- The per-call conversion in `Agent._run_internal`: an exception is
converted into a `success=false` envelope for that call. -/
def envelopeOf (tool_name : String) : ToolOutcome → Envelope
  | ToolOutcome.ok r => r
  | ToolOutcome.exn e =>
    { success := false
      tool_name := tool_name
      error := some ("Tool '" ++ tool_name ++ "' execution failed: " ++ e) }

/-- A scheduled tool call of one assistant turn (`tc["id"]`,
`tc["function"]["name"]`). -/
structure ToolCallReq where
  id : String
  name : String
deriving DecidableEq

/-- Fallback call for out-of-range list reads. -/
def defaultCall : ToolCallReq := { id := "", name := "" }

/-- Fallback outcome for out-of-range list reads. -/
def defaultOutcome : ToolOutcome := ToolOutcome.exn ""

/-- The `(tool_call_id, content)` pairs appended to memory after a tool
batch, in the original call order (`zip(tool_call_ids, tool_call_names,
tool_results)` in `Agent._run_internal`). -/
def processBatch (calls : List ToolCallReq) (results : List ToolOutcome) :
    List (String × String) :=
  (calls.zip results).map
    (fun p => (p.1.id, formatToolResultForLLM (envelopeOf p.1.name p.2)))

/-! ### The agent step loop (`Agent._run_internal`) -/

/-- One model response: content and the requested tool calls. -/
structure ModelResponse where
  content : String
  tool_calls : List ToolCallReq
deriving DecidableEq

/-- One memory append made by the agent loop, by provenance. -/
inductive LogEntry where
  | userMsg : String → LogEntry
  | assistantMsg : String → LogEntry
  | assistantToolCalls : List ToolCallReq → String → LogEntry
  | toolResult : String → String → LogEntry
deriving DecidableEq

/-- Agent loop configuration: step budget, tool allow-list, interleaved
thinking flag. -/
structure AgentCfg where
  maxSteps : Nat
  availableTools : List String
  interleavedThinking : Bool
deriving DecidableEq

/-- Loop state: the appends made so far, the completion signal, the
completion-nudge flag, and the number of iterations executed. -/
structure LoopState where
  log : List LogEntry
  taskCompleted : Bool
  completionPromptAdded : Bool
  stepsRun : Nat
deriving DecidableEq

/-- `Agent._get_completion_tool_name`: prefer `complete_task`, else
`complete_sub_task`. -/
def getCompletionToolName (available : List String) : Option String :=
  if available.contains "complete_task" then some "complete_task"
  else if available.contains "complete_sub_task" then some "complete_sub_task"
  else none

/-- Nudge wording for sub-agents. -/
def completeSubTaskPrompt : String :=
  "You have reached the maximum number of steps. Synthesize your findings,"
    ++ " then call the `complete_sub_task` tool with your sub-report to wrap up."

/-- Nudge wording for the lead agent. -/
def completeTaskPrompt : String :=
  "You have reached the maximum number of steps. Synthesize your findings,"
    ++ " then call the `complete_task` tool with your final report to finish."

/-- `Agent._build_max_step_completion_prompt`. -/
def buildMaxStepCompletionPrompt (available : List String) : Option String :=
  match getCompletionToolName available with
  | none => none
  | some tn =>
    if tn == "complete_sub_task" then some completeSubTaskPrompt
    else some completeTaskPrompt

/-- Did this outcome signal task completion?  (`formatted_result.get
("task_completed")`; exceptions never signal completion.) -/
def outcomeTaskCompleted : ToolOutcome → Bool
  | ToolOutcome.ok env => env.task_completed
  | ToolOutcome.exn _ => false

/-- The value of the `tool_name` loop variable after the result loop in
`Agent._run_internal`: the name from the last processed `zip` element,
or, when no results were zipped, the last scheduled call's name. -/
def lastScheduledName (calls : List ToolCallReq) (results : List ToolOutcome) : String :=
  match (calls.zip results).getLast? with
  | some p => p.1.name
  | none =>
    match calls.getLast? with
    | some c => c.name
    | none => ""

/-- The completion-nudge phase at the start of a step: on the final
allowed step, when no completion fired and no nudge was injected yet,
append the completion prompt (if a completion tool is available) and
set the flag. -/
def nudgePhase (cfg : AgentCfg) (i : Nat) (st : LoopState) : LoopState :=
  match (if !st.taskCompleted && !st.completionPromptAdded && i == cfg.maxSteps - 1 then
      buildMaxStepCompletionPrompt cfg.availableTools
    else none) with
  | some p =>
    { st with log := st.log ++ [LogEntry.userMsg p], completionPromptAdded := true }
  | none => st

/-- The tool-result log entries of a batch, in original call order. -/
def batchToolMsgs (calls : List ToolCallReq) (results : List ToolOutcome) : List LogEntry :=
  (calls.zip results).map
    (fun p => LogEntry.toolResult (formatToolResultForLLM (envelopeOf p.1.name p.2)) p.1.id)

/-- Did any envelope of the batch signal `task_completed`? -/
def batchCompleted (calls : List ToolCallReq) (results : List ToolOutcome) : Bool :=
  (calls.zip results).any (fun p => outcomeTaskCompleted p.2)

/-- The plan-save and completion tools that suppress the interleaved
reflection turn. -/
def reflectionSkipTools : List String :=
  ["save_research_plan", "complete_task", "complete_sub_task"]

/-- The reflection gate of `Agent._run_internal`: interleaved thinking
enabled, the (last) `tool_name` not a plan-save/completion tool, no
completion signal, step index a multiple of 3. -/
def reflectionGate (cfg : AgentCfg) (i : Nat) (lastName : String)
    (completed1 : Bool) : Bool :=
  cfg.interleavedThinking
    && !(lastName == "save_research_plan" || lastName == "complete_task"
          || lastName == "complete_sub_task")
    && !completed1
    && i % 3 == 0

/-- The log after the tool batch and the optional reflection turn. -/
def logAfterBatch (cfg : AgentCfg) (exec : Nat → List ToolOutcome)
    (refl : Nat → Except String String) (i : Nat) (st : LoopState)
    (resp : ModelResponse) : List LogEntry :=
  if reflectionGate cfg i (lastScheduledName resp.tool_calls (exec i))
      (st.taskCompleted || batchCompleted resp.tool_calls (exec i)) then
    match refl i with
    | Except.error _ =>
      st.log ++ LogEntry.assistantToolCalls resp.tool_calls resp.content
        :: batchToolMsgs resp.tool_calls (exec i)
    | Except.ok s =>
      if pyStrip s == "" then
        st.log ++ LogEntry.assistantToolCalls resp.tool_calls resp.content
          :: batchToolMsgs resp.tool_calls (exec i)
      else
        (st.log ++ LogEntry.assistantToolCalls resp.tool_calls resp.content
          :: batchToolMsgs resp.tool_calls (exec i))
          ++ [LogEntry.assistantMsg ("[Reflection]\n" ++ pyStrip s)]
  else
    st.log ++ LogEntry.assistantToolCalls resp.tool_calls resp.content
      :: batchToolMsgs resp.tool_calls (exec i)

/-- Processing of one model response: record the assistant turn, execute
the tool batch, append the results in original call order, detect the
completion signal, and optionally run the interleaved reflection turn
gated on the last processed tool name. -/
def processToolPhase (cfg : AgentCfg) (exec : Nat → List ToolOutcome)
    (refl : Nat → Except String String) (i : Nat) (st : LoopState)
    (resp : ModelResponse) : LoopState :=
  if resp.tool_calls.isEmpty then
    { st with log := st.log ++ [LogEntry.assistantMsg resp.content]
              stepsRun := st.stepsRun + 1 }
  else
    { log := logAfterBatch cfg exec refl i st resp
      taskCompleted := st.taskCompleted || batchCompleted resp.tool_calls (exec i)
      completionPromptAdded := st.completionPromptAdded
      stepsRun := st.stepsRun + 1 }

/-- One iteration of the agent loop body at step `i`: optional
completion nudge, model call, tool batch processing, optional
interleaved reflection. -/
def stepRun (cfg : AgentCfg) (script : Nat → ModelResponse)
    (exec : Nat → List ToolOutcome) (refl : Nat → Except String String)
    (i : Nat) (st : LoopState) : LoopState :=
  processToolPhase cfg exec refl i (nudgePhase cfg i st) (script i)

/-- The initial loop state of `Agent._run_internal`. -/
def initLoopState : LoopState :=
  { log := [], taskCompleted := false, completionPromptAdded := false, stepsRun := 0 }

/-- The `for step_index in range(max_steps)` loop with its break on the
completion signal. -/
def runLoopAux (cfg : AgentCfg) (script : Nat → ModelResponse)
    (exec : Nat → List ToolOutcome) (refl : Nat → Except String String) :
    Nat → Nat → LoopState → LoopState
  | _, 0, st => st
  | i, fuel + 1, st =>
    let st1 := stepRun cfg script exec refl i st
    if st1.taskCompleted then st1
    else runLoopAux cfg script exec refl (i + 1) fuel st1

/-- Run the agent loop from the initial state. -/
def runLoop (cfg : AgentCfg) (script : Nat → ModelResponse)
    (exec : Nat → List ToolOutcome) (refl : Nat → Except String String) : LoopState :=
  runLoopAux cfg script exec refl 0 cfg.maxSteps initLoopState

/-- Is a log entry a user message?  Inside `Agent._run_internal` only
the completion nudge appends user messages. -/
def isUserEntry : LogEntry → Bool
  | LogEntry.userMsg _ => true
  | _ => false

/-- The number of user messages (completion nudges) in a loop log. -/
def nudgeCount (log : List LogEntry) : Nat := (log.filter isUserEntry).length

/-- Is a log entry a plain assistant message (as appended by the
interleaved reflection step)? -/
def isPlainAssistant : LogEntry → Bool
  | LogEntry.assistantMsg _ => true
  | _ => false

/-- The number of plain assistant messages in a loop log. -/
def plainAssistantCount (log : List LogEntry) : Nat :=
  (log.filter isPlainAssistant).length

/-- The batch gate potential of a loop state: counts nudges plus the
remaining nudge allowance. -/
def nudgePotential (st : LoopState) : Nat :=
  nudgeCount st.log + (if st.completionPromptAdded then 0 else 1)

/-! ### The tool executor (`executor.py`) -/

/-- The message of the `ToolExecutionError` raised for a disallowed
tool. -/
def notAllowedError (tool_name : String) : String :=
  "Tool '" ++ tool_name ++ "' is not allowed for this executor instance."

/-- `ToolExecutor._execute_tool_inner`: check the allow-list, then
validate the arguments, then dispatch to the named handler.  The
validator and the handlers (external collaborators performing the side
effects) are passed in; the second component is the trace of side
effects performed. -/
def executeToolInner {α β : Type}
    (available : List String)
    (validate : String → α → Except String Unit)
    (dispatch : String → α → Except String Envelope × List β)
    (tool_name : String) (tool_input : α) : Except String Envelope × List β :=
  if !available.contains tool_name then
    (Except.error (notAllowedError tool_name), [])
  else
    match validate tool_name tool_input with
    | Except.error e => (Except.error e, [])
    | Except.ok _ =>
      if tool_name == "web_search" || tool_name == "web_extract"
          || tool_name == "run_subagent" || tool_name == "save_research_plan"
          || tool_name == "complete_task" || tool_name == "complete_sub_task" then
        dispatch tool_name tool_input
      else
        (Except.error ("Unknown tool: " ++ tool_name), [])

/-! ### Filename sanitization (`ToolExecutor._normalize_filename_component`) -/

/-- The safe filename character set: ASCII letters, digits, hyphen,
underscore. -/
def isSafeFilenameChar (c : Char) : Bool :=
  ('a' ≤ c && c ≤ 'z') || ('A' ≤ c && c ≤ 'Z') || ('0' ≤ c && c ≤ '9')
    || c == '-' || c == '_'

/-- Characters stripped from both ends (`.strip("-_")`). -/
def isStripChar (c : Char) : Bool := c == '-' || c == '_'

/-- Python's `str.strip("-_")` on a character list. -/
def stripDashUnderscore (l : List Char) : List Char :=
  ((l.dropWhile isStripChar).reverse.dropWhile isStripChar).reverse

/-- `ToolExecutor._normalize_filename_component`: replace every unsafe
character by a hyphen, strip leading/trailing hyphens/underscores, and
fall back to the default on an empty or all-stripped input. -/
def normalizeFilenameComponent (value : Option String) (dflt : String) : String :=
  match value with
  | none => dflt
  | some s =>
    if s == "" then dflt
    else if (stripDashUnderscore
        (s.data.map (fun c => if isSafeFilenameChar c then c else '-'))).isEmpty then dflt
    else String.mk (stripDashUnderscore
        (s.data.map (fun c => if isSafeFilenameChar c then c else '-')))

/-! ### Concrete fixtures -/

/-- A curator collaborator whose LLM call raises. -/
def llmErr : List Msg → Except String String := fun _ => Except.error "curator down"

/-- An append sequence in which a tool result arrives after its
assistant record was absorbed by a `keep_last_n_turns = 0`
summarization. -/
def c1BadOps : List AddOp :=
  [systemOp "sys prompt", userOp "task",
   assistantToolCallsOp [{ id := "call_x", fn := "web_search" }] "",
   toolOp "result text" "call_x" none]

/-- A memory whose second record is an assistant turn start, so that the
computed summarization boundary can be 1. -/
def c4Memory : Memory :=
  runAdds llmErr "T0" (mkMemory 3 2)
    [systemOp "sys prompt", assistantOp "a1", assistantOp "a2"]

/-- A seeded two-record memory (system prompt then user inquiry) under a
`keep_last_n_turns = 0`, `max_turns = 0` configuration. -/
def c2Memory : Memory :=
  runAdds llmErr "T0" (mkMemory 0 0) [systemOp "sys prompt", userOp "task"]

/-- Loop configuration for the reflection-gate scenario: one step,
interleaved thinking on, no completion tool. -/
def c8Cfg : AgentCfg :=
  { maxSteps := 1, availableTools := ["web_search", "save_research_plan"]
    interleavedThinking := true }

/-- A model turn issuing a mixed batch whose last call is the plan-save
tool. -/
def c8Script : Nat → ModelResponse := fun _ =>
  { content := ""
    tool_calls := [{ id := "1", name := "web_search" }, { id := "2", name := "save_research_plan" }] }

/-- Successful outcomes for the mixed batch. -/
def c8Exec : Nat → List ToolOutcome := fun _ =>
  [ToolOutcome.ok { success := true, tool_name := "web_search" },
   ToolOutcome.ok { success := true, tool_name := "save_research_plan" }]

/-- A reflection collaborator returning non-empty content. -/
def c8Refl : Nat → Except String String := fun _ => Except.ok "reflection thoughts"

/-- The third assistant turn appended to `c4Memory`. -/
def c4Msg : Msg := { role := "assistant", content := "a3" }

/-- The post-append history of the boundary-one scenario. -/
def c4H1 : List HRec := c4Memory.history ++ [mkHRec "T1" c4Msg "assistant_msg"]

/-- A tool message fed through the curator-input filter. -/
def c7ToolMsg : Msg := { role := "tool", content := "r", tool_call_id := some "x" }

/-- A two-call batch: the first call fails, the second succeeds. -/
def c5Calls : List ToolCallReq :=
  [{ id := "1", name := "web_search" }, { id := "2", name := "complete_task" }]

/-- Outcomes for the two-call batch: an exception and a successful
completion envelope. -/
def c5Results : List ToolOutcome :=
  [ToolOutcome.exn "boom",
   ToolOutcome.ok { success := true, tool_name := "complete_task",
                    formatted_content := "final", task_completed := true }]

/-! ## Helper lemmas: list indexing -/

theorem getD_append_len {α : Type} (l1 l2 : List α) (d : α) (n : Nat) (hn : n = l1.length) :
    (l1 ++ l2).getD n d = l2.getD 0 d := by
  subst hn
  induction l1 with
  | nil => rfl
  | cons a t ih => simpa using ih

theorem getD_mem {α : Type} (l : List α) (i : Nat) (d : α) (h : i < l.length) :
    l.getD i d ∈ l := by
  induction l generalizing i with
  | nil => simp at h
  | cons a t ih =>
    cases i with
    | zero => simp
    | succ j =>
      simp only [List.getD_cons_succ]
      exact List.mem_cons_of_mem _ (ih j (by simpa using h))

theorem drop_getD_cons {α : Type} (l : List α) (i : Nat) (d : α) (h : i < l.length) :
    l.drop i = l.getD i d :: l.drop (i + 1) := by
  induction l generalizing i with
  | nil => simp at h
  | cons a t ih =>
    cases i with
    | zero => simp
    | succ j =>
      simp only [List.drop_succ_cons, List.getD_cons_succ]
      exact ih j (by simpa using h)

/-! ## Helper lemmas: assistant turn starts -/

theorem assistantStartsFrom_append (xs ys : List HRec) :
    ∀ i, assistantStartsFrom i (xs ++ ys)
      = assistantStartsFrom i xs ++ assistantStartsFrom (i + xs.length) ys := by
  induction xs with
  | nil => intro i; simp [assistantStartsFrom]
  | cons r t ih =>
    intro i
    simp only [List.cons_append, assistantStartsFrom, List.length_cons, List.append_eq]
    rw [ih (i + 1)]
    have : i + 1 + t.length = i + (t.length + 1) := by omega
    rw [this]
    by_cases hr : isRealAssistantTurnStart r
    · simp [hr]
    · simp [hr]

theorem assistantStartsFrom_nil_of (recs : List HRec)
    (h : ∀ r ∈ recs, isRealAssistantTurnStart r = false) :
    ∀ i, assistantStartsFrom i recs = [] := by
  induction recs with
  | nil => intro i; rfl
  | cons r t ih =>
    intro i
    have hr : isRealAssistantTurnStart r = false := h r (by simp)
    simp only [assistantStartsFrom, hr]
    exact ih (fun x hx => h x (by simp [hx])) (i + 1)

theorem assistantStartsFrom_length (ys : List HRec) :
    ∀ i j, (assistantStartsFrom i ys).length = (assistantStartsFrom j ys).length := by
  induction ys with
  | nil => intro i j; rfl
  | cons r t ih =>
    intro i j
    by_cases hr : isRealAssistantTurnStart r <;>
      simp [assistantStartsFrom, hr, ih (i + 1) (j + 1)]

theorem realTurns_append (xs ys : List HRec) :
    realTurns (xs ++ ys) = realTurns xs + realTurns ys := by
  simp only [realTurns, assistantStarts, assistantStartsFrom_append xs ys 0,
    List.length_append]
  rw [assistantStartsFrom_length ys (0 + xs.length) 0]

theorem realTurns_le_append (xs ys : List HRec) :
    realTurns xs ≤ realTurns (xs ++ ys) := by
  rw [realTurns_append]; omega

theorem mem_assistantStartsFrom (h : List HRec) :
    ∀ i j, j ∈ assistantStartsFrom i h →
      ∃ k, k < h.length ∧ j = i + k
        ∧ isRealAssistantTurnStart (h.getD k defaultHRec) = true := by
  induction h with
  | nil => intro i j hj; simp [assistantStartsFrom] at hj
  | cons r t ih =>
    intro i j hj
    by_cases hr : isRealAssistantTurnStart r
    · simp only [assistantStartsFrom, hr, if_pos, List.mem_cons] at hj
      rcases hj with hj | hj
      · exact ⟨0, by simp, by omega, by simpa [hj] using hr⟩
      · rcases ih (i + 1) j hj with ⟨k, hk, hjk, hstart⟩
        exact ⟨k + 1, by simpa using hk, by omega, by simpa using hstart⟩
    · simp only [assistantStartsFrom, hr, if_neg, Bool.false_eq_true,
        not_false_eq_true] at hj
      rcases ih (i + 1) j hj with ⟨k, hk, hjk, hstart⟩
      exact ⟨k + 1, by simpa using hk, by omega, by simpa using hstart⟩

theorem mem_assistantStarts (h : List HRec) (j : Nat) (hj : j ∈ assistantStarts h) :
    j < h.length ∧ isRealAssistantTurnStart (h.getD j defaultHRec) = true := by
  rcases mem_assistantStartsFrom h 0 j hj with ⟨k, hk, hjk, hstart⟩
  have : j = k := by omega
  subst this
  exact ⟨hk, hstart⟩

theorem summarizeDecision_some_cases (keep maxT : Nat) (h : List HRec) (b : Nat)
    (hb : summarizeDecision keep maxT h = some b) :
    b = h.length ∨ (b ∈ assistantStarts h ∧ 0 < b) := by
  simp only [summarizeDecision] at hb
  split_ifs at hb with h1 h2 h3 h4
  · left; exact (Option.some_inj.mp hb).symm
  · right
    have hbval : (assistantStarts h).getD ((assistantStarts h).length - keep) 0 = b :=
      Option.some_inj.mp hb
    have hkeep : 1 ≤ keep := by
      rcases Nat.eq_zero_or_pos keep with hk | hk
      · exact absurd (by simpa using hk) h2
      · exact hk
    have hlen : (assistantStarts h).length - keep < (assistantStarts h).length := by
      omega
    have := getD_mem (assistantStarts h) ((assistantStarts h).length - keep) 0 hlen
    rw [hbval] at this
    exact ⟨this, by omega⟩

/-! ## Helper lemmas: the pairing invariant -/

theorem lpAux_append (xs ys : List HRec) :
    ∀ la, lpAux la (xs ++ ys) = (lpAux la xs && lpAux (updLastA la xs) ys) := by
  induction xs with
  | nil => intro la; simp [lpAux, updLastA]
  | cons r t ih =>
    intro la
    simp only [List.cons_append, lpAux, updLastA, List.append_eq, ih, Bool.and_assoc]

theorem lpAux_cons_assistant (r : HRec) (rest : List HRec)
    (hr : r.msg.role = "assistant") (la : Option Msg) :
    lpAux la (r :: rest) = lpAux (some r.msg) rest := by
  have h1 : (r.msg.role == "tool") = false := by rw [hr]; decide
  have h2 : (r.msg.role == "assistant") = true := by rw [hr]; decide
  simp [lpAux, toolOk, h1, h2]

theorem lpAux_take (xs : List HRec) (n : Nat) (la : Option Msg)
    (h : lpAux la xs = true) : lpAux la (xs.take n) = true := by
  rw [← List.take_append_drop n xs, lpAux_append, Bool.and_eq_true] at h
  exact h.1

theorem lpAux_drop_assistant (xs : List HRec) (b : Nat)
    (hb : b < xs.length)
    (hass : (xs.getD b defaultHRec).msg.role = "assistant")
    (hlp : lpAux none xs = true) (la : Option Msg) :
    lpAux la (xs.drop b) = true := by
  have hsplit := hlp
  rw [← List.take_append_drop b xs, lpAux_append, Bool.and_eq_true] at hsplit
  have hdrop := hsplit.2
  rw [drop_getD_cons xs b defaultHRec hb] at hdrop ⊢
  rw [lpAux_cons_assistant _ _ hass] at hdrop
  rw [lpAux_cons_assistant _ _ hass]
  exact hdrop

theorem sanitize_role_tool (m : Msg) :
    (sanitizeForModel m).role = "tool" ↔ m.role = "tool" := by
  by_cases hc : m.role ∈ roleEnum
  · simp [sanitizeForModel, hc]
  · have hnt : ¬ m.role = "tool" := fun h => hc (by rw [h]; decide)
    simp [sanitizeForModel, hc, hnt]

theorem sanitize_tool_fields (m : Msg) (h : m.role = "tool") :
    (sanitizeForModel m).tool_call_id = m.tool_call_id := by
  have hm : ("tool" : String) ∈ roleEnum := by decide
  simp [sanitizeForModel, h, hm]

theorem sanitize_assistant (m : Msg) (h : m.role = "assistant") :
    (sanitizeForModel m).role = "assistant" ∧ (sanitizeForModel m).tool_calls = m.tool_calls := by
  have hc : m.role ∈ roleEnum := by rw [h]; decide
  simp [sanitizeForModel, hc, h]

theorem hasMatchingAssistant_mono (prev l : List Msg) (id : String)
    (h : hasMatchingAssistant prev id = true) :
    hasMatchingAssistant (prev ++ l) id = true := by
  simp only [hasMatchingAssistant, List.any_append, Bool.or_eq_true]
  exact Or.inl h

theorem lp_to_df_aux (h : List HRec) :
    ∀ (lastA : Option Msg) (prev : List Msg),
      (∀ a id, lastA = some a → tcContains a id = true →
        hasMatchingAssistant prev id = true) →
      lpAux lastA h = true →
      danglingFreeAux prev (h.map (fun r => sanitizeForModel r.msg)) = true := by
  induction h with
  | nil => intro lastA prev _ _; rfl
  | cons r t ih =>
    intro lastA prev hinv hlp
    simp only [lpAux, Bool.and_eq_true] at hlp
    obtain ⟨hok, hrest⟩ := hlp
    simp only [List.map_cons, danglingFreeAux, Bool.and_eq_true]
    refine ⟨?_, ?_⟩
    · by_cases hrole : (sanitizeForModel r.msg).role = "tool"
      · have hmrole : r.msg.role = "tool" := (sanitize_role_tool r.msg).mp hrole
        have htci := sanitize_tool_fields r.msg hmrole
        have hbeq : (r.msg.role == "tool") = true := by rw [hmrole]; decide
        rw [toolOk, if_pos hbeq] at hok
        cases htc : r.msg.tool_call_id with
        | none => simp [hrole, htci, htc]
        | some id =>
          rw [htc] at hok
          cases hla : lastA with
          | none => rw [hla] at hok; exact absurd hok (by simp)
          | some a =>
            rw [hla] at hok
            have hmatch := hinv a id hla hok
            simp [hrole, htci, htc, hmatch]
      · have : ((sanitizeForModel r.msg).role == "tool") = false := by
          simpa using hrole
        simp [this]
    · apply ih _ _ _ hrest
      intro a id hla htc
      by_cases hrass : r.msg.role = "assistant"
      · have hbeq : (r.msg.role == "assistant") = true := by rw [hrass]; decide
        rw [if_pos hbeq] at hla
        have ha : r.msg = a := by injection hla
        subst ha
        obtain ⟨hsrole, hstc⟩ := sanitize_assistant r.msg hrass
        simp only [hasMatchingAssistant, List.any_append, Bool.or_eq_true]
        right
        simp only [List.any_cons, List.any_nil, Bool.or_false]
        have : tcContains (sanitizeForModel r.msg) id = true := by
          rw [tcContains, hstc]; rw [tcContains] at htc; exact htc
        simp [hsrole, this]
      · have hbeq : (r.msg.role == "assistant") = false := by
          simpa using hrass
        rw [if_neg (by simp [hbeq])] at hla
        exact hasMatchingAssistant_mono prev _ id (hinv a id hla htc)

theorem latestPaired_danglingFree (h : List HRec) (hlp : latestPaired h = true) :
    danglingFree (h.map (fun r => sanitizeForModel r.msg)) = true :=
  lp_to_df_aux h none [] (fun _ _ hla _ => absurd hla (by simp)) hlp

theorem addRec_messages_eq (llm : List Msg → Except String String) (ts : String)
    (m : Memory) (msg : Msg) (kind : String)
    (h : m.messages = m.history.map (fun r => sanitizeForModel r.msg)) :
    (addRec llm ts m msg kind).messages
      = (addRec llm ts m msg kind).history.map (fun r => sanitizeForModel r.msg) := by
  simp only [addRec]
  cases hdec : summarizeDecision m.keep_last_n_turns m.max_turns
      (m.history ++ [mkHRec ts msg kind]) with
  | none => simp [h, mkHRec]
  | some b => simp

theorem addRec_latestPaired (llm : List Msg → Except String String) (ts : String)
    (m : Memory) (msg : Msg) (kind : String)
    (hanch : anchoredOp m msg = true)
    (hlp : latestPaired m.history = true) :
    latestPaired (addRec llm ts m msg kind).history = true := by
  have hlp1 : lpAux none (m.history ++ [mkHRec ts msg kind]) = true := by
    rw [lpAux_append, Bool.and_eq_true]
    refine ⟨hlp, ?_⟩
    simp only [lpAux, Bool.and_eq_true]
    exact ⟨by simpa [mkHRec, lastAssistant] using hanch, trivial⟩
  simp only [addRec]
  cases hdec : summarizeDecision m.keep_last_n_turns m.max_turns
      (m.history ++ [mkHRec ts msg kind]) with
  | none => simpa [latestPaired] using hlp1
  | some b =>
    rcases summarizeDecision_some_cases _ _ _ _ hdec with hb | ⟨hbmem, _⟩
    · have hdropnil : (m.history ++ [mkHRec ts msg kind]).drop b = [] := by
        rw [hb]; exact List.drop_length _
      have hsynth : (("assistant" : String) == "tool") = false := by decide
      simp only [latestPaired, hdropnil, lpAux_append, Bool.and_eq_true]
      exact ⟨lpAux_take _ _ _ hlp1, by simp [lpAux, toolOk, synthRecord, hsynth]⟩
    · obtain ⟨hblt, hbstart⟩ := mem_assistantStarts _ b hbmem
      have hbrole :
          (((m.history ++ [mkHRec ts msg kind]).getD b defaultHRec)).msg.role
            = "assistant" := by
        simp only [isRealAssistantTurnStart, Bool.and_eq_true] at hbstart
        exact eq_of_beq hbstart.1
      simp only [latestPaired, lpAux_append, Bool.and_eq_true]
      refine ⟨lpAux_take _ _ _ hlp1, ?_⟩
      rw [lpAux_cons_assistant _ _ (by simp [synthRecord])]
      exact lpAux_drop_assistant _ b hblt hbrole hlp1 _

theorem runAdds_inv (llm : List Msg → Except String String) (ts : String) :
    ∀ (ops : List AddOp) (m : Memory),
      latestPaired m.history = true →
      m.messages = m.history.map (fun r => sanitizeForModel r.msg) →
      goodRunB llm ts m ops = true →
      latestPaired (runAdds llm ts m ops).history = true
        ∧ (runAdds llm ts m ops).messages
            = (runAdds llm ts m ops).history.map (fun r => sanitizeForModel r.msg) := by
  intro ops
  induction ops with
  | nil => intro m h1 h2 _; exact ⟨h1, h2⟩
  | cons op t ih =>
    intro m h1 h2 hgood
    simp only [goodRunB, Bool.and_eq_true] at hgood
    simp only [runAdds]
    exact ih _ (addRec_latestPaired _ _ _ _ _ hgood.1 h1)
      (addRec_messages_eq _ _ _ _ _ h2) hgood.2

/-! ## Claim C1 -/

/-- C1, counterexample: the claim quantifies over every configuration,
including `keep_last_n_turns = 0`.  With `keep_last_n_turns = 0` and
`max_turns = 0`, appending system, user, an assistant message carrying
`tool_calls` id `call_x`, and then the tool result for `call_x`
produces a model view whose tool message dangles: the summarization
triggered by the assistant append absorbed the `tool_calls` record into
the synthetic summary (which carries no `tool_calls`) before the tool
result arrived. -/
theorem c1_dangling_tool_counterexample :
    danglingFree ((runAdds llmErr "T0" (mkMemory 0 0) c1BadOps).messages) = false := by
  decide

/-- C1 (amended): for every configuration and every append sequence in
which each tool append's `tool_call_id` is listed in the `tool_calls`
of the memory's most recent assistant message at the time of the append
(which is how `Agent._run_internal` uses `Memory`), the model view
returned by `get_model_messages()` contains no tool message whose
`tool_call_id` lacks a preceding assistant message with a matching
`tool_calls` entry; in particular the summarization rewrite never
splits such an assistant record from its tool results. -/
theorem c1_model_view_tool_pairing (keep maxT : Nat)
    (llm : List Msg → Except String String) (ts : String) (ops : List AddOp)
    (hgood : goodRunB llm ts (mkMemory keep maxT) ops = true) :
    danglingFree (runAdds llm ts (mkMemory keep maxT) ops).messages = true := by
  obtain ⟨hlp, hmsgs⟩ := runAdds_inv llm ts ops (mkMemory keep maxT) rfl rfl hgood
  rw [hmsgs]
  exact latestPaired_danglingFree _ hlp

/-- Witness for C1: the same append sequence is anchored under a
configuration that keeps the batch inside the retained window, and
there the model view is dangling-free. -/
theorem c1_model_view_tool_pairing_witness :
    goodRunB llmErr "T0" (mkMemory 2 10) c1BadOps = true
      ∧ danglingFree (runAdds llmErr "T0" (mkMemory 2 10) c1BadOps).messages = true :=
  ⟨by decide, c1_model_view_tool_pairing 2 10 llmErr "T0" c1BadOps (by decide)⟩

/-! ## Claim C2 -/

theorem take_two_of_len {α : Type} (l : List α) (d : α) (h : 2 ≤ l.length) :
    l.take 2 = [l.getD 0 d, l.getD 1 d] := by
  rcases l with _ | ⟨x, _ | ⟨y, rest⟩⟩
  · simp at h
  · simp at h
  · simp

theorem addRec_fire_shape (llm : List Msg → Except String String) (ts : String)
    (m : Memory) (msg : Msg) (kind : String) (b : Nat)
    (hlen : 2 ≤ m.history.length)
    (hfire : summarizeDecision m.keep_last_n_turns m.max_turns
      (m.history ++ [mkHRec ts msg kind]) = some b) :
    (addRec llm ts m msg kind).history
      = m.history.getD 0 defaultHRec :: m.history.getD 1 defaultHRec
        :: synthRecord ts (mkAssistantSummary ts
              (llm (curatorInput (m.history ++ [mkHRec ts msg kind]) b)))
        :: (m.history ++ [mkHRec ts msg kind]).drop b := by
  have h1len : 2 ≤ (m.history ++ [mkHRec ts msg kind]).length := by
    rw [List.length_append]; simp; omega
  have htake : (m.history ++ [mkHRec ts msg kind]).take 2
      = [m.history.getD 0 defaultHRec, m.history.getD 1 defaultHRec] := by
    rw [take_two_of_len _ defaultHRec h1len,
      List.getD_append _ _ _ _ (by omega), List.getD_append _ _ _ _ (by omega)]
  simp only [addRec, hfire]
  rw [htake]
  simp

/-- C2: on a history whose first two records are the initial system
record and the initial user record, whenever summarization fires during
an append the new history is exactly [the original first record, the
original second record, one synthetic assistant record with
`synthetic=true` and `kind=history_summary`] followed by all records
from the boundary onward, unchanged and in order; in particular the
first system message and first user message are never removed. -/
theorem c2_summarization_preserves_seed (llm : List Msg → Except String String)
    (ts : String) (m : Memory) (msg : Msg) (kind : String) (b : Nat)
    (hlen : 2 ≤ m.history.length)
    (hsys : (m.history.getD 0 defaultHRec).msg.role = "system")
    (husr : (m.history.getD 1 defaultHRec).msg.role = "user")
    (hfire : summarizeDecision m.keep_last_n_turns m.max_turns
      (m.history ++ [mkHRec ts msg kind]) = some b) :
    (addRec llm ts m msg kind).history
      = m.history.getD 0 defaultHRec :: m.history.getD 1 defaultHRec
        :: synthRecord ts (mkAssistantSummary ts
              (llm (curatorInput (m.history ++ [mkHRec ts msg kind]) b)))
        :: (m.history ++ [mkHRec ts msg kind]).drop b
    ∧ ((addRec llm ts m msg kind).history.getD 0 defaultHRec
        = m.history.getD 0 defaultHRec)
    ∧ ((addRec llm ts m msg kind).history.getD 1 defaultHRec
        = m.history.getD 1 defaultHRec)
    ∧ ((addRec llm ts m msg kind).history.getD 2 defaultHRec).meta.synthetic = true
    ∧ ((addRec llm ts m msg kind).history.getD 2 defaultHRec).meta.kind
        = "history_summary" := by
  have heq := addRec_fire_shape llm ts m msg kind b hlen hfire
  refine ⟨heq, ?_, ?_, ?_, ?_⟩ <;> rw [heq] <;> simp [synthRecord]

/-- Witness for C2: a concrete seeded memory on which the next assistant
append fires summarization with boundary 3. -/
theorem c2_summarization_preserves_seed_witness :
    (2 ≤ c2Memory.history.length)
    ∧ summarizeDecision c2Memory.keep_last_n_turns c2Memory.max_turns
        (c2Memory.history ++ [mkHRec "T1" { role := "assistant", content := "a" } "assistant_msg"])
        = some 3
    ∧ ((addRec llmErr "T1" c2Memory { role := "assistant", content := "a" }
        "assistant_msg").history.getD 2 defaultHRec).meta.synthetic = true :=
  ⟨by decide, by decide,
    (c2_summarization_preserves_seed llmErr "T1" c2Memory
      { role := "assistant", content := "a" } "assistant_msg" 3
      (by decide) (by decide) (by decide) (by decide)).2.2.2.1⟩

/-! ## Claim C4 -/

/-- C4, counterexample: the code skips summarization only when the
boundary is ≤ 0, not when it is ≤ 1.  On a memory whose second record
is an assistant turn start (`max_turns = 2`, `keep_last_n_turns = 3`),
the fourth assistant append computes boundary 1 and the rewrite runs
(duplicating the record at index 1) instead of leaving history
unchanged apart from the appended record. -/
theorem c4_boundary_one_counterexample :
    c4Memory.max_turns < realTurns c4H1
    ∧ 0 < c4Memory.keep_last_n_turns
    ∧ ¬ (realTurns c4H1 < c4Memory.keep_last_n_turns)
    ∧ (assistantStarts c4H1).getD (realTurns c4H1 - c4Memory.keep_last_n_turns) 0 = 1
    ∧ (addRec llmErr "T1" c4Memory c4Msg "assistant_msg").history ≠ c4H1 := by
  decide

/-- C4 (amended): when the real-turn count exceeds `max_turns` and
`keep_last_n_turns ≥ 1`, the append performs no summarization exactly
under the code's skip conditions: fewer real turns than
`keep_last_n_turns`, or a computed boundary equal to 0 (the first
record) — not ≤ 1 as claimed; history is then left unchanged apart from
the newly appended record. -/
theorem c4_skip_conditions (llm : List Msg → Except String String) (ts : String)
    (m : Memory) (msg : Msg) (kind : String)
    (hover : m.max_turns < realTurns (m.history ++ [mkHRec ts msg kind]))
    (hkeep : 1 ≤ m.keep_last_n_turns)
    (hskip : realTurns (m.history ++ [mkHRec ts msg kind]) < m.keep_last_n_turns
      ∨ (assistantStarts (m.history ++ [mkHRec ts msg kind])).getD
          (realTurns (m.history ++ [mkHRec ts msg kind]) - m.keep_last_n_turns) 0 = 0) :
    (addRec llm ts m msg kind).history = m.history ++ [mkHRec ts msg kind]
      ∧ (addRec llm ts m msg kind).messages
          = m.messages ++ [sanitizeForModel msg] := by
  simp only [realTurns] at hover hskip
  have hdec : summarizeDecision m.keep_last_n_turns m.max_turns
      (m.history ++ [mkHRec ts msg kind]) = none := by
    simp only [summarizeDecision]
    split_ifs with h1 h2 h3 h4
    · rfl
    · exfalso; have := eq_of_beq h2; omega
    · rfl
    · rfl
    · exfalso
      rcases hskip with h | h
      · exact h3 h
      · exact h4 (by omega)
  constructor <;> simp [addRec, hdec]

/-- Witness for C4: one real assistant turn with `max_turns = 0` and
`keep_last_n_turns = 5` exceeds the budget but is below the retention
window, so the append is plain. -/
theorem c4_skip_conditions_witness :
    (mkMemory 5 0).max_turns
        < realTurns ((mkMemory 5 0).history ++ [mkHRec "T0" { role := "assistant", content := "a" } "assistant_msg"])
    ∧ (addRec llmErr "T0" (mkMemory 5 0) { role := "assistant", content := "a" }
        "assistant_msg").history
      = (mkMemory 5 0).history ++ [mkHRec "T0" { role := "assistant", content := "a" } "assistant_msg"] :=
  ⟨by decide,
    (c4_skip_conditions llmErr "T0" (mkMemory 5 0)
      { role := "assistant", content := "a" } "assistant_msg"
      (by decide) (by decide) (Or.inl (by decide))).1⟩

/-! ## Claim C7 -/

/-- C7: if the curator LLM call fails, the summary text is the fixed
fallback string inside the standard summary wrapper and the failure is
absorbed; the summarizer input (the filtered prefix) contains only
messages whose role is neither system nor user; and on a seeded history
the synthetic record written by a failing summarization carries exactly
the wrapped fallback text. -/
theorem c7_summarizer_degradation (ts e : String) (h : List HRec) (b : Nat) :
    mkAssistantSummary ts (Except.error e)
      = "[Summary of earlier turns. Treat this as prior context only.] \n[History Summary @ "
          ++ ts ++ "]\n" ++ summaryFallback
    ∧ (∀ mm ∈ curatorInput h b, mm.role ≠ "system" ∧ mm.role ≠ "user")
    ∧ (∀ (m : Memory) (msg : Msg) (kind : String) (b0 : Nat),
        2 ≤ m.history.length →
        summarizeDecision m.keep_last_n_turns m.max_turns
          (m.history ++ [mkHRec ts msg kind]) = some b0 →
        ((addRec (fun _ => Except.error e) ts m msg kind).history.getD 2
            defaultHRec).msg.content
          = "[Summary of earlier turns. Treat this as prior context only.] \n[History Summary @ "
              ++ ts ++ "]\n" ++ summaryFallback) := by
  refine ⟨rfl, ?_, ?_⟩
  · intro mm hmm
    simp only [curatorInput, List.mem_map] at hmm
    obtain ⟨r, hr, rfl⟩ := hmm
    have hf := List.of_mem_filter hr
    simp only [Bool.and_eq_true, Bool.not_eq_true'] at hf
    obtain ⟨hf1, hf2⟩ := hf
    constructor
    · intro hc; rw [hc] at hf1; simp at hf1
    · intro hc; rw [hc] at hf2; simp at hf2
  · intro m msg kind b0 hlen hfire
    have heq := addRec_fire_shape (fun _ => Except.error e) ts m msg kind b0 hlen hfire
    rw [heq]
    simp [synthRecord, mkAssistantSummary]

/-- Witness for C7: a failing curator call on a concrete seeded memory
writes the wrapped fallback text, and a concrete tool message passed to
the summarizer is neither system nor user. -/
theorem c7_summarizer_degradation_witness :
    mkAssistantSummary "T1" (Except.error "boom")
      = "[Summary of earlier turns. Treat this as prior context only.] \n[History Summary @ "
          ++ "T1" ++ "]\n" ++ summaryFallback
    ∧ (c7ToolMsg.role ≠ "system" ∧ c7ToolMsg.role ≠ "user")
    ∧ ((addRec (fun _ => Except.error "boom") "T1" c2Memory
          { role := "assistant", content := "a" } "assistant_msg").history.getD 2
            defaultHRec).msg.content
        = "[Summary of earlier turns. Treat this as prior context only.] \n[History Summary @ "
            ++ "T1" ++ "]\n" ++ summaryFallback :=
  ⟨(c7_summarizer_degradation "T1" "boom" [mkHRec "T0" c7ToolMsg "tool_msg"] 1).1,
    (c7_summarizer_degradation "T1" "boom" [mkHRec "T0" c7ToolMsg "tool_msg"] 1).2.1
      c7ToolMsg (by decide),
    (c7_summarizer_degradation "T1" "boom" [mkHRec "T0" c7ToolMsg "tool_msg"] 1).2.2
      c2Memory { role := "assistant", content := "a" } "assistant_msg" 3
      (by decide) (by decide)⟩

/-! ## Claim C3 -/

theorem runAdds_append (llm : List Msg → Except String String) (ts : String) :
    ∀ (xs ys : List AddOp) (m : Memory),
      runAdds llm ts m (xs ++ ys) = runAdds llm ts (runAdds llm ts m xs) ys := by
  intro xs
  induction xs with
  | nil => intro ys m; rfl
  | cons op t ih => intro ys m; simp only [List.cons_append, runAdds]; exact ih ys _

theorem realTurns_opsRecs (ts : String) :
    ∀ ops : List AddOp,
      realTurns (opsRecs ts ops)
        = (ops.filter (fun op => op.msg.role == "assistant")).length := by
  intro ops
  induction ops with
  | nil => rfl
  | cons op t ih =>
    have hsplit : opsRecs ts (op :: t) = [mkHRec ts op.msg op.kind] ++ opsRecs ts t := rfl
    rw [hsplit, realTurns_append, ih]
    by_cases hr : (op.msg.role == "assistant") = true
    · simp only [realTurns, assistantStarts, assistantStartsFrom, isRealAssistantTurnStart,
        mkHRec, hr, List.filter_cons]
      simp [hr]
      omega
    · simp [realTurns, assistantStarts, assistantStartsFrom, isRealAssistantTurnStart,
        mkHRec, hr, List.filter_cons]

theorem filter_assistant_nil (tr : List AddOp)
    (h : ∀ op ∈ tr, ¬ op.msg.role = "assistant") :
    tr.filter (fun op => op.msg.role == "assistant") = [] := by
  rw [List.filter_eq_nil]
  intro op hop
  simpa using h op hop

theorem runAdds_no_fire (llm : List Msg → Except String String) (ts : String) :
    ∀ (ops : List AddOp) (m : Memory),
      realTurns (m.history ++ opsRecs ts ops) ≤ m.max_turns →
      (runAdds llm ts m ops).history = m.history ++ opsRecs ts ops
        ∧ (runAdds llm ts m ops).keep_last_n_turns = m.keep_last_n_turns
        ∧ (runAdds llm ts m ops).max_turns = m.max_turns := by
  intro ops
  induction ops with
  | nil => intro m _; refine ⟨by simp [runAdds, opsRecs], rfl, rfl⟩
  | cons op t ih =>
    intro m hbound
    have hre : m.history ++ opsRecs ts (op :: t)
        = (m.history ++ [mkHRec ts op.msg op.kind]) ++ opsRecs ts t := by
      simp [opsRecs]
    have hb1 : realTurns (m.history ++ [mkHRec ts op.msg op.kind]) ≤ m.max_turns := by
      refine le_trans (realTurns_le_append _ (opsRecs ts t)) ?_
      rw [← hre]; exact hbound
    have hdec : summarizeDecision m.keep_last_n_turns m.max_turns
        (m.history ++ [mkHRec ts op.msg op.kind]) = none := by
      simp only [summarizeDecision]
      rw [if_pos]
      simpa [realTurns] using hb1
    have hstep : addRec llm ts m op.msg op.kind
        = { m with history := m.history ++ [mkHRec ts op.msg op.kind],
                   messages := m.messages ++ [sanitizeForModel op.msg] } := by
      simp [addRec, hdec]
    simp only [runAdds, hstep]
    have hrec := ih { m with history := m.history ++ [mkHRec ts op.msg op.kind],
                             messages := m.messages ++ [sanitizeForModel op.msg] }
      (by simpa [← List.append_assoc, ← hre] using hbound)
    refine ⟨?_, hrec.2.1, hrec.2.2⟩
    rw [hrec.1]
    simp [opsRecs]

theorem runAdds_messages_eq (llm : List Msg → Except String String) (ts : String) :
    ∀ (ops : List AddOp) (m : Memory),
      m.messages = m.history.map (fun r => sanitizeForModel r.msg) →
      (runAdds llm ts m ops).messages
        = (runAdds llm ts m ops).history.map (fun r => sanitizeForModel r.msg) := by
  intro ops
  induction ops with
  | nil => intro m h; exact h
  | cons op t ih =>
    intro m h
    simp only [runAdds]
    exact ih _ (addRec_messages_eq _ _ _ _ _ h)

/-- C3: with `max_turns = 3`, `keep_last_n_turns = 2`, for every append
sequence of the form system, user, then four real assistant turns with
interleaved non-assistant traffic, immediately after the fourth real
assistant turn is appended the model view has length 3 (system, user,
summary) plus the number of records from the retained last two turns
(the third turn's records plus the fourth turn's assistant record), and
the summary record at index 2 of the audit history has `synthetic =
true`. -/
theorem c3_fourth_turn_summarization (llm : List Msg → Except String String)
    (ts : String) (s u a1 a2 a3 a4 : AddOp) (tr1 tr2 tr3 : List AddOp)
    (hs : s.msg.role = "system") (hu : u.msg.role = "user")
    (ha1 : a1.msg.role = "assistant") (ha2 : a2.msg.role = "assistant")
    (ha3 : a3.msg.role = "assistant") (ha4 : a4.msg.role = "assistant")
    (htr1 : ∀ op ∈ tr1, ¬ op.msg.role = "assistant")
    (htr2 : ∀ op ∈ tr2, ¬ op.msg.role = "assistant")
    (htr3 : ∀ op ∈ tr3, ¬ op.msg.role = "assistant") :
    (runAdds llm ts (mkMemory 2 3)
        (([s, u] ++ (a1 :: tr1) ++ (a2 :: tr2) ++ (a3 :: tr3)) ++ [a4])).messages.length
      = 3 + (tr3.length + 2)
    ∧ ((runAdds llm ts (mkMemory 2 3)
        (([s, u] ++ (a1 :: tr1) ++ (a2 :: tr2) ++ (a3 :: tr3)) ++ [a4])).history.getD 2
          defaultHRec).meta.synthetic = true := by
  have ps : (s.msg.role == "assistant") = false := by rw [hs]; decide
  have pu : (u.msg.role == "assistant") = false := by rw [hu]; decide
  have pa1 : (a1.msg.role == "assistant") = true := by rw [ha1]; decide
  have pa2 : (a2.msg.role == "assistant") = true := by rw [ha2]; decide
  have pa3 : (a3.msg.role == "assistant") = true := by rw [ha3]; decide
  have pa4 : (a4.msg.role == "assistant") = true := by rw [ha4]; decide
  have ptr1 := filter_assistant_nil tr1 htr1
  have ptr2 := filter_assistant_nil tr2 htr2
  have ptr3 := filter_assistant_nil tr3 htr3
  -- the no-fire prefix
  have hpreBound :
      realTurns ((mkMemory 2 3).history
        ++ opsRecs ts ([s, u] ++ (a1 :: tr1) ++ (a2 :: tr2) ++ (a3 :: tr3)))
        ≤ (mkMemory 2 3).max_turns := by
    simp only [mkMemory, List.nil_append]
    rw [realTurns_opsRecs]
    simp [List.filter_append, List.filter_cons, ps, pu, pa1, pa2, pa3, ptr1, ptr2, ptr3]
  have hpre := runAdds_no_fire llm ts
    ([s, u] ++ (a1 :: tr1) ++ (a2 :: tr2) ++ (a3 :: tr3)) (mkMemory 2 3) hpreBound
  obtain ⟨hhist, hkeep, hmax⟩ := hpre
  rw [runAdds_append]
  -- names for the two halves around the boundary
  have hLR : (runAdds llm ts (mkMemory 2 3)
        ([s, u] ++ (a1 :: tr1) ++ (a2 :: tr2) ++ (a3 :: tr3))).history
        ++ [mkHRec ts a4.msg a4.kind]
      = (opsRecs ts ([s, u] ++ (a1 :: tr1) ++ (a2 :: tr2)))
        ++ (opsRecs ts (a3 :: tr3) ++ [mkHRec ts a4.msg a4.kind]) := by
    rw [hhist]
    simp [mkMemory, opsRecs]
  have hrtL : realTurns (opsRecs ts ([s, u] ++ (a1 :: tr1) ++ (a2 :: tr2))) = 2 := by
    rw [realTurns_opsRecs]
    simp [List.filter_append, List.filter_cons, ps, pu, pa1, pa2, ptr1, ptr2]
  have hrtR : realTurns (opsRecs ts (a3 :: tr3) ++ [mkHRec ts a4.msg a4.kind]) = 2 := by
    rw [realTurns_append]
    have h4 : [mkHRec ts a4.msg a4.kind] = opsRecs ts [a4] := rfl
    rw [h4, realTurns_opsRecs, realTurns_opsRecs]
    simp [List.filter_cons, pa3, pa4, ptr3]
  have hrtAll : (assistantStarts
      ((opsRecs ts ([s, u] ++ (a1 :: tr1) ++ (a2 :: tr2)))
        ++ (opsRecs ts (a3 :: tr3) ++ [mkHRec ts a4.msg a4.kind]))).length = 4 := by
    have := realTurns_append (opsRecs ts ([s, u] ++ (a1 :: tr1) ++ (a2 :: tr2)))
      (opsRecs ts (a3 :: tr3) ++ [mkHRec ts a4.msg a4.kind])
    rw [hrtL, hrtR] at this
    simpa [realTurns] using this
  have hstarts : assistantStarts
      ((opsRecs ts ([s, u] ++ (a1 :: tr1) ++ (a2 :: tr2)))
        ++ (opsRecs ts (a3 :: tr3) ++ [mkHRec ts a4.msg a4.kind]))
      = assistantStarts (opsRecs ts ([s, u] ++ (a1 :: tr1) ++ (a2 :: tr2)))
        ++ assistantStartsFrom (opsRecs ts ([s, u] ++ (a1 :: tr1) ++ (a2 :: tr2))).length
            (opsRecs ts (a3 :: tr3) ++ [mkHRec ts a4.msg a4.kind]) := by
    simp [assistantStarts, assistantStartsFrom_append]
  have hheadR : assistantStartsFrom
      (opsRecs ts ([s, u] ++ (a1 :: tr1) ++ (a2 :: tr2))).length
      (opsRecs ts (a3 :: tr3) ++ [mkHRec ts a4.msg a4.kind])
      = (opsRecs ts ([s, u] ++ (a1 :: tr1) ++ (a2 :: tr2))).length
        :: assistantStartsFrom ((opsRecs ts ([s, u] ++ (a1 :: tr1) ++ (a2 :: tr2))).length + 1)
            (opsRecs ts tr3 ++ [mkHRec ts a4.msg a4.kind]) := by
    have hreal : isRealAssistantTurnStart (mkHRec ts a3.msg a3.kind) = true := by
      simp [isRealAssistantTurnStart, mkHRec, pa3]
    simp [opsRecs, assistantStartsFrom, hreal]
  have hboundary : (assistantStarts
      ((opsRecs ts ([s, u] ++ (a1 :: tr1) ++ (a2 :: tr2)))
        ++ (opsRecs ts (a3 :: tr3) ++ [mkHRec ts a4.msg a4.kind]))).getD 2 0
      = (opsRecs ts ([s, u] ++ (a1 :: tr1) ++ (a2 :: tr2))).length := by
    rw [hstarts, getD_append_len _ _ _ _ (by simpa [realTurns] using hrtL.symm), hheadR]
    simp
  have hLlen : (opsRecs ts ([s, u] ++ (a1 :: tr1) ++ (a2 :: tr2))).length
      = 4 + (tr1.length + tr2.length) := by
    simp [opsRecs]
    omega
  have hdec : summarizeDecision
      ((runAdds llm ts (mkMemory 2 3)
        ([s, u] ++ (a1 :: tr1) ++ (a2 :: tr2) ++ (a3 :: tr3)))).keep_last_n_turns
      ((runAdds llm ts (mkMemory 2 3)
        ([s, u] ++ (a1 :: tr1) ++ (a2 :: tr2) ++ (a3 :: tr3)))).max_turns
      ((runAdds llm ts (mkMemory 2 3)
        ([s, u] ++ (a1 :: tr1) ++ (a2 :: tr2) ++ (a3 :: tr3))).history
        ++ [mkHRec ts a4.msg a4.kind])
      = some (opsRecs ts ([s, u] ++ (a1 :: tr1) ++ (a2 :: tr2))).length := by
    rw [hkeep, hmax, hLR]
    simp only [mkMemory, summarizeDecision]
    rw [hrtAll]
    have h42 : (4 : Nat) - 2 = 2 := by norm_num
    rw [if_neg (by omega), if_neg (by decide), if_neg (by omega), h42, hboundary,
      if_neg (by rw [hLlen]; omega)]
  -- the final append
  have hmsgs := runAdds_messages_eq llm ts
    (([s, u] ++ (a1 :: tr1) ++ (a2 :: tr2) ++ (a3 :: tr3)) ++ [a4]) (mkMemory 2 3) rfl
  rw [runAdds_append] at hmsgs
  have hfin : runAdds llm ts (runAdds llm ts (mkMemory 2 3)
        ([s, u] ++ (a1 :: tr1) ++ (a2 :: tr2) ++ (a3 :: tr3))) [a4]
      = addRec llm ts (runAdds llm ts (mkMemory 2 3)
          ([s, u] ++ (a1 :: tr1) ++ (a2 :: tr2) ++ (a3 :: tr3))) a4.msg a4.kind := rfl
  rw [hfin] at hmsgs ⊢
  have hhist2 : (addRec llm ts (runAdds llm ts (mkMemory 2 3)
        ([s, u] ++ (a1 :: tr1) ++ (a2 :: tr2) ++ (a3 :: tr3))) a4.msg a4.kind).history
      = ((opsRecs ts ([s, u] ++ (a1 :: tr1) ++ (a2 :: tr2)))
          ++ (opsRecs ts (a3 :: tr3) ++ [mkHRec ts a4.msg a4.kind])).take 2
        ++ synthRecord ts (mkAssistantSummary ts (llm (curatorInput
            ((runAdds llm ts (mkMemory 2 3)
              ([s, u] ++ (a1 :: tr1) ++ (a2 :: tr2) ++ (a3 :: tr3))).history
              ++ [mkHRec ts a4.msg a4.kind])
            (opsRecs ts ([s, u] ++ (a1 :: tr1) ++ (a2 :: tr2))).length)))
        :: (opsRecs ts (a3 :: tr3) ++ [mkHRec ts a4.msg a4.kind]) := by
    simp only [addRec, hdec]
    rw [hLR]
    congr 1
    rw [List.drop_left]
  have htakelen : (((opsRecs ts ([s, u] ++ (a1 :: tr1) ++ (a2 :: tr2)))
      ++ (opsRecs ts (a3 :: tr3) ++ [mkHRec ts a4.msg a4.kind])).take 2).length = 2 := by
    rw [List.length_take]
    simp [opsRecs]
  constructor
  · rw [hmsgs, List.length_map, hhist2]
    simp only [List.length_append, List.length_cons, htakelen]
    simp [opsRecs]
    omega
  · rw [hhist2, getD_append_len _ _ _ _ htakelen.symm]
    simp [synthRecord]

/-- Witness for C3: the concrete run system, user, four bare assistant
turns, no interleaved traffic. -/
theorem c3_fourth_turn_summarization_witness :
    (runAdds llmErr "T0" (mkMemory 2 3)
        (([systemOp "s", userOp "q"] ++ (assistantOp "a1" :: ([] : List AddOp))
          ++ (assistantOp "a2" :: ([] : List AddOp))
          ++ (assistantOp "a3" :: ([] : List AddOp))) ++ [assistantOp "a4"])).messages.length
      = 3 + (([] : List AddOp).length + 2)
    ∧ ((runAdds llmErr "T0" (mkMemory 2 3)
        (([systemOp "s", userOp "q"] ++ (assistantOp "a1" :: ([] : List AddOp))
          ++ (assistantOp "a2" :: ([] : List AddOp))
          ++ (assistantOp "a3" :: ([] : List AddOp))) ++ [assistantOp "a4"])).history.getD 2
          defaultHRec).meta.synthetic = true :=
  c3_fourth_turn_summarization llmErr "T0" (systemOp "s") (userOp "q")
    (assistantOp "a1") (assistantOp "a2") (assistantOp "a3") (assistantOp "a4")
    [] [] [] rfl rfl rfl rfl rfl rfl (by simp) (by simp) (by simp)

/-! ## Claim C5 -/

theorem processBatch_eq_range (calls : List ToolCallReq) :
    ∀ results : List ToolOutcome, results.length = calls.length →
      processBatch calls results
        = (List.range calls.length).map (fun i =>
            ((calls.getD i defaultCall).id,
              formatToolResultForLLM (envelopeOf (calls.getD i defaultCall).name
                (results.getD i defaultOutcome)))) := by
  induction calls with
  | nil => intro results _; simp [processBatch]
  | cons c cs ih =>
    intro results h
    cases results with
    | nil => simp at h
    | cons r rs =>
      have hlen' : rs.length = cs.length := by simpa using h
      simp only [processBatch] at ih ⊢
      simp only [List.zip_cons_cons, List.map_cons, List.length_cons]
      rw [List.range_succ_eq_map]
      simp only [List.map_cons, List.getD_cons_zero, List.map_map]
      refine congrArg (List.cons _) ?_
      rw [ih rs hlen']
      apply List.map_congr_left
      intro i _
      simp [Function.comp, List.getD_cons_succ]

/-- C5: for a tool batch of one assistant turn, an exception raised by
an individual tool execution is converted into a `success=false`
envelope with error text for that call only; the `(tool_call_id,
content)` pairs appended to memory are exactly one per call in the
original call order of the assistant's `tool_calls` list, and the
`i`-th appended pair depends only on the `i`-th call and outcome, so
sibling calls are unaffected. -/
theorem c5_batch_isolated_failures_in_order (calls : List ToolCallReq)
    (results : List ToolOutcome) (hlen : results.length = calls.length) :
    processBatch calls results
      = (List.range calls.length).map (fun i =>
          ((calls.getD i defaultCall).id,
            formatToolResultForLLM (envelopeOf (calls.getD i defaultCall).name
              (results.getD i defaultOutcome))))
    ∧ (∀ nm e, (envelopeOf nm (ToolOutcome.exn e)).success = false
        ∧ (envelopeOf nm (ToolOutcome.exn e)).error
            = some ("Tool '" ++ nm ++ "' execution failed: " ++ e)) :=
  ⟨processBatch_eq_range calls results hlen, fun _ _ => ⟨rfl, rfl⟩⟩

/-- Witness for C5: the concrete two-call batch whose first call raises
and whose second call succeeds. -/
theorem c5_batch_isolated_failures_in_order_witness :
    processBatch c5Calls c5Results
      = (List.range c5Calls.length).map (fun i =>
          ((c5Calls.getD i defaultCall).id,
            formatToolResultForLLM (envelopeOf (c5Calls.getD i defaultCall).name
              (c5Results.getD i defaultOutcome))))
    ∧ (envelopeOf "web_search" (ToolOutcome.exn "boom")).success = false :=
  ⟨(c5_batch_isolated_failures_in_order c5Calls c5Results rfl).1,
    ((c5_batch_isolated_failures_in_order c5Calls c5Results rfl).2 "web_search" "boom").1⟩

/-! ## Claim C6 -/

theorem nudgeCount_append (l1 l2 : List LogEntry) :
    nudgeCount (l1 ++ l2) = nudgeCount l1 + nudgeCount l2 := by
  simp [nudgeCount, List.filter_append]

theorem nudgeCount_toolResults (pairs : List (ToolCallReq × ToolOutcome)) :
    nudgeCount (pairs.map
      (fun p => LogEntry.toolResult (formatToolResultForLLM (envelopeOf p.1.name p.2))
        p.1.id)) = 0 := by
  induction pairs with
  | nil => rfl
  | cons q t ih => simpa [nudgeCount, List.filter_cons, isUserEntry] using ih

theorem nudgeCount_cons (a : LogEntry) (l : List LogEntry) :
    nudgeCount (a :: l) = (if isUserEntry a then 1 else 0) + nudgeCount l := by
  simp only [nudgeCount, List.filter_cons]
  by_cases h : isUserEntry a = true
  · simp [h]; omega
  · simp [h]

theorem processToolPhase_spec (cfg : AgentCfg) (exec : Nat → List ToolOutcome)
    (refl : Nat → Except String String) (i : Nat) (st : LoopState)
    (resp : ModelResponse) :
    ∃ rest : List LogEntry,
      (processToolPhase cfg exec refl i st resp).log = st.log ++ rest
      ∧ nudgeCount rest = 0
      ∧ (processToolPhase cfg exec refl i st resp).completionPromptAdded
          = st.completionPromptAdded
      ∧ (processToolPhase cfg exec refl i st resp).stepsRun = st.stepsRun + 1
      ∧ (processToolPhase cfg exec refl i st resp).taskCompleted
          = (st.taskCompleted
              || (resp.tool_calls.zip (exec i)).any (fun p => outcomeTaskCompleted p.2)) := by
  have hbatch : nudgeCount (batchToolMsgs resp.tool_calls (exec i)) = 0 :=
    nudgeCount_toolResults (resp.tool_calls.zip (exec i))
  have hlog : ∃ rest, logAfterBatch cfg exec refl i st resp = st.log ++ rest
      ∧ nudgeCount rest = 0 := by
    unfold logAfterBatch
    by_cases hg : reflectionGate cfg i (lastScheduledName resp.tool_calls (exec i))
        (st.taskCompleted || batchCompleted resp.tool_calls (exec i)) = true
    · rw [if_pos hg]
      split
      · refine ⟨LogEntry.assistantToolCalls resp.tool_calls resp.content
          :: batchToolMsgs resp.tool_calls (exec i), rfl, ?_⟩
        rw [nudgeCount_cons, hbatch]
        simp [isUserEntry]
      · next x s2 heq =>
        split
        · refine ⟨LogEntry.assistantToolCalls resp.tool_calls resp.content
            :: batchToolMsgs resp.tool_calls (exec i), rfl, ?_⟩
          rw [nudgeCount_cons, hbatch]
          simp [isUserEntry]
        · refine ⟨LogEntry.assistantToolCalls resp.tool_calls resp.content
            :: (batchToolMsgs resp.tool_calls (exec i)
              ++ [LogEntry.assistantMsg ("[Reflection]\n" ++ pyStrip s2)]), ?_, ?_⟩
          · simp
          · rw [nudgeCount_cons, nudgeCount_append, hbatch]
            simp [isUserEntry, nudgeCount, List.filter_cons]
    · rw [if_neg hg]
      refine ⟨LogEntry.assistantToolCalls resp.tool_calls resp.content
        :: batchToolMsgs resp.tool_calls (exec i), rfl, ?_⟩
      rw [nudgeCount_cons, hbatch]
      simp [isUserEntry]
  unfold processToolPhase
  by_cases he : resp.tool_calls.isEmpty
  · have hz : resp.tool_calls.zip (exec i) = [] := by
      cases hcalls : resp.tool_calls with
      | nil => rfl
      | cons c t => rw [hcalls] at he; simp at he
    refine ⟨[LogEntry.assistantMsg resp.content], ?_, ?_, ?_, ?_, ?_⟩ <;>
      simp [he, hz, nudgeCount, List.filter_cons, isUserEntry]
  · rw [if_neg he]
    obtain ⟨rest, h1, h2⟩ := hlog
    exact ⟨rest, h1, h2, rfl, rfl, rfl⟩

theorem nudgePhase_potential (cfg : AgentCfg) (i : Nat) (st : LoopState) :
    nudgePotential (nudgePhase cfg i st) ≤ nudgePotential st
      ∧ (nudgePhase cfg i st).taskCompleted = st.taskCompleted
      ∧ (nudgePhase cfg i st).stepsRun = st.stepsRun := by
  unfold nudgePhase
  by_cases hc : (!st.taskCompleted && !st.completionPromptAdded
      && (i == cfg.maxSteps - 1)) = true
  · rw [if_pos hc]
    cases hb : buildMaxStepCompletionPrompt cfg.availableTools with
    | none => exact ⟨le_refl _, rfl, rfl⟩
    | some p =>
      have hadded : st.completionPromptAdded = false := by
        simp only [Bool.and_eq_true, Bool.not_eq_true'] at hc
        exact hc.1.2
      refine ⟨?_, rfl, rfl⟩
      simp [nudgePotential, nudgeCount_append, hadded, nudgeCount, List.filter_cons,
        isUserEntry]
  · rw [if_neg hc]
    exact ⟨le_refl _, rfl, rfl⟩

theorem stepRun_potential (cfg : AgentCfg) (script : Nat → ModelResponse)
    (exec : Nat → List ToolOutcome) (refl : Nat → Except String String)
    (i : Nat) (st : LoopState) :
    nudgePotential (stepRun cfg script exec refl i st) ≤ nudgePotential st := by
  obtain ⟨rest, hlog, hcount, hadded, _, _⟩ :=
    processToolPhase_spec cfg exec refl i (nudgePhase cfg i st) (script i)
  have h1 : nudgePotential (stepRun cfg script exec refl i st)
      = nudgePotential (nudgePhase cfg i st) := by
    simp [stepRun, nudgePotential, hlog, hadded, nudgeCount_append, hcount]
  rw [h1]
  exact (nudgePhase_potential cfg i st).1

theorem runLoopAux_potential (cfg : AgentCfg) (script : Nat → ModelResponse)
    (exec : Nat → List ToolOutcome) (refl : Nat → Except String String) :
    ∀ (fuel i : Nat) (st : LoopState),
      nudgePotential (runLoopAux cfg script exec refl i fuel st) ≤ nudgePotential st := by
  intro fuel
  induction fuel with
  | zero => intro i st; exact le_refl _
  | succ f ih =>
    intro i st
    simp only [runLoopAux]
    by_cases hc : (stepRun cfg script exec refl i st).taskCompleted = true
    · simp only [hc, if_true]
      exact stepRun_potential cfg script exec refl i st
    · simp only [hc, if_false]
      exact le_trans (ih (i + 1) _) (stepRun_potential cfg script exec refl i st)

theorem runLoop_nudge_at_most_once (cfg : AgentCfg) (script : Nat → ModelResponse)
    (exec : Nat → List ToolOutcome) (refl : Nat → Except String String) :
    nudgeCount (runLoop cfg script exec refl).log ≤ 1 := by
  have h := runLoopAux_potential cfg script exec refl cfg.maxSteps 0 initLoopState
  have hinit : nudgePotential initLoopState = 1 := rfl
  rw [hinit] at h
  refine le_trans ?_ h
  unfold nudgePotential
  exact Nat.le_add_right _ _

/-- C6: with `max_steps = 1` and a tool set including a completion tool,
if the model never signals completion the loop terminates exhausted
after exactly one step; exactly one completion-nudge user message is
injected into memory, placed before that step's model turn, and its
wording is chosen by whether `complete_task` (preferred) or
`complete_sub_task` is in the allow-list; over any run whatsoever the
nudge is injected at most once. -/
theorem c6_exhausted_single_step_one_nudge (avail : List String) (think : Bool)
    (script : Nat → ModelResponse) (exec : Nat → List ToolOutcome)
    (refl : Nat → Except String String) (p : String)
    (hp : buildMaxStepCompletionPrompt avail = some p)
    (hnc : ∀ pr ∈ (script 0).tool_calls.zip (exec 0), outcomeTaskCompleted pr.2 = false) :
    (runLoop ⟨1, avail, think⟩ script exec refl).taskCompleted = false
    ∧ (runLoop ⟨1, avail, think⟩ script exec refl).stepsRun = 1
    ∧ (runLoop ⟨1, avail, think⟩ script exec refl).log.take 1 = [LogEntry.userMsg p]
    ∧ nudgeCount (runLoop ⟨1, avail, think⟩ script exec refl).log = 1
    ∧ (avail.contains "complete_task" = true → p = completeTaskPrompt)
    ∧ (avail.contains "complete_task" = false → p = completeSubTaskPrompt)
    ∧ (∀ (cfg' : AgentCfg) (script' : Nat → ModelResponse)
        (exec' : Nat → List ToolOutcome) (refl' : Nat → Except String String),
        nudgeCount (runLoop cfg' script' exec' refl').log ≤ 1) := by
  have hany : ((script 0).tool_calls.zip (exec 0)).any
      (fun pr => outcomeTaskCompleted pr.2) = false := by
    cases hq : ((script 0).tool_calls.zip (exec 0)).any (fun pr => outcomeTaskCompleted pr.2)
    · rfl
    · exfalso
      obtain ⟨x, hx, hpx⟩ := List.any_eq_true.mp hq
      rw [hnc x hx] at hpx
      exact absurd hpx (by simp)
  have hone : runLoop ⟨1, avail, think⟩ script exec refl
      = stepRun ⟨1, avail, think⟩ script exec refl 0 initLoopState := by
    simp only [runLoop, runLoopAux]
    split <;> rfl
  have hnudge : nudgePhase ⟨1, avail, think⟩ 0 initLoopState
      = { log := [LogEntry.userMsg p], taskCompleted := false,
          completionPromptAdded := true, stepsRun := 0 } := by
    simp [nudgePhase, initLoopState, hp]
  obtain ⟨rest, hlog, hcount, _, hsteps, htc⟩ :=
    processToolPhase_spec ⟨1, avail, think⟩ exec refl 0
      { log := [LogEntry.userMsg p], taskCompleted := false,
        completionPromptAdded := true, stepsRun := 0 } (script 0)
  have hstep : stepRun ⟨1, avail, think⟩ script exec refl 0 initLoopState
      = processToolPhase ⟨1, avail, think⟩ exec refl 0
          { log := [LogEntry.userMsg p], taskCompleted := false,
            completionPromptAdded := true, stepsRun := 0 } (script 0) := by
    rw [stepRun, hnudge]
  refine ⟨?_, ?_, ?_, ?_, ?_, ?_,
    fun cfg' script' exec' refl' => runLoop_nudge_at_most_once cfg' script' exec' refl'⟩
  · rw [hone, hstep, htc]
    simp [hany]
  · rw [hone, hstep, hsteps]
  · rw [hone, hstep, hlog]
    simp
  · rw [hone, hstep, hlog, nudgeCount_append, hcount]
    simp [nudgeCount, List.filter_cons, isUserEntry]
  · intro hct
    simp only [buildMaxStepCompletionPrompt, getCompletionToolName, hct, if_true] at hp
    have : completeTaskPrompt = p := by
      simpa using hp
    exact this.symm
  · intro hct
    simp only [buildMaxStepCompletionPrompt, getCompletionToolName, hct] at hp
    by_cases hcst : avail.contains "complete_sub_task" = true
    · simp only [hcst, if_true, if_false] at hp
      have : completeSubTaskPrompt = p := by
        simpa using hp
      exact this.symm
    · have hcst2 : ¬ ("complete_sub_task" ∈ avail) := by simpa using hcst
      simp [hcst2] at hp

/-- Witness for C6: a lead-agent tool set, a model turn with no tool
calls, empty batches. -/
theorem c6_exhausted_single_step_one_nudge_witness :
    (runLoop ⟨1, ["web_search", "complete_task"], false⟩
        (fun _ => { content := "done", tool_calls := [] })
        (fun _ => []) (fun _ => Except.error "off")).taskCompleted = false
    ∧ (runLoop ⟨1, ["web_search", "complete_task"], false⟩
        (fun _ => { content := "done", tool_calls := [] })
        (fun _ => []) (fun _ => Except.error "off")).stepsRun = 1
    ∧ nudgeCount (runLoop ⟨1, ["web_search", "complete_task"], false⟩
        (fun _ => { content := "done", tool_calls := [] })
        (fun _ => []) (fun _ => Except.error "off")).log = 1 := by
  have h := c6_exhausted_single_step_one_nudge ["web_search", "complete_task"] false
    (fun _ => { content := "done", tool_calls := [] })
    (fun _ => []) (fun _ => Except.error "off") completeTaskPrompt
    (by decide) (by simp)
  exact ⟨h.1, h.2.1, h.2.2.2.1⟩

/-! ## Claim C8 -/

theorem plainAssistantCount_append (l1 l2 : List LogEntry) :
    plainAssistantCount (l1 ++ l2) = plainAssistantCount l1 + plainAssistantCount l2 := by
  simp [plainAssistantCount, List.filter_append]

theorem plainAssistantCount_cons (a : LogEntry) (l : List LogEntry) :
    plainAssistantCount (a :: l)
      = (if isPlainAssistant a then 1 else 0) + plainAssistantCount l := by
  simp only [plainAssistantCount, List.filter_cons]
  by_cases h : isPlainAssistant a = true
  · simp [h]; omega
  · simp [h]

theorem plainAssistantCount_batchToolMsgs (calls : List ToolCallReq)
    (results : List ToolOutcome) :
    plainAssistantCount (batchToolMsgs calls results) = 0 := by
  unfold batchToolMsgs
  induction calls.zip results with
  | nil => rfl
  | cons q t ih =>
    simpa [plainAssistantCount, List.filter_cons, isPlainAssistant] using ih

/-- C8, counterexample: with interleaved thinking on, no completion
signal, step index 0 (a multiple of 3), the batch
`[web_search, save_research_plan]` is not exclusively composed of
plan-save/completion tools, so per the claim the reflection turn should
run; the code gates on the *last* call's name
(`save_research_plan`) and no reflection turn is appended. -/
theorem c8_reflection_gate_counterexample :
    ((c8Script 0).tool_calls.map (fun c => c.name)).all
        (fun n => reflectionSkipTools.contains n) = false
    ∧ c8Cfg.interleavedThinking = true
    ∧ (0 : Nat) % 3 = 0
    ∧ (runLoop c8Cfg c8Script c8Exec c8Refl).taskCompleted = false
    ∧ plainAssistantCount (runLoop c8Cfg c8Script c8Exec c8Refl).log = 0 := by
  decide

/-- C8 (amended): after a non-empty tool batch is processed (with a
usable, non-empty reflection response available), the interleaved
reflection turn appends exactly one plain assistant message iff
interleaved thinking is enabled, no completion signal has fired (before
or in this batch), the step index is a multiple of 3, and the name of
the *last* scheduled tool call of the batch — not the whole batch — is
none of `save_research_plan`, `complete_task`, `complete_sub_task`. -/
theorem c8_reflection_gated_on_last_call (cfg : AgentCfg)
    (exec : Nat → List ToolOutcome) (refl : Nat → Except String String)
    (i : Nat) (st : LoopState) (resp : ModelResponse) (s : String)
    (hne : resp.tool_calls.isEmpty = false)
    (hr : refl i = Except.ok s) (hs : (pyStrip s == "") = false) :
    plainAssistantCount (processToolPhase cfg exec refl i st resp).log
      = plainAssistantCount st.log
        + (if reflectionGate cfg i (lastScheduledName resp.tool_calls (exec i))
              (st.taskCompleted || batchCompleted resp.tool_calls (exec i))
           then 1 else 0) := by
  unfold processToolPhase
  rw [if_neg (by simp [hne])]
  show plainAssistantCount (logAfterBatch cfg exec refl i st resp)
      = plainAssistantCount st.log
        + (if reflectionGate cfg i (lastScheduledName resp.tool_calls (exec i))
              (st.taskCompleted || batchCompleted resp.tool_calls (exec i))
           then 1 else 0)
  by_cases hg : reflectionGate cfg i (lastScheduledName resp.tool_calls (exec i))
      (st.taskCompleted || batchCompleted resp.tool_calls (exec i)) = true
  · rw [if_pos hg]
    unfold logAfterBatch
    rw [if_pos hg]
    split
    · next e heq =>
      rw [hr] at heq
      simp at heq
    · next s2 heq =>
      rw [hr] at heq
      obtain rfl : s = s2 := by injection heq
      rw [if_neg (by simp [hs])]
      rw [plainAssistantCount_append, plainAssistantCount_append,
        plainAssistantCount_cons, plainAssistantCount_batchToolMsgs]
      simp [plainAssistantCount, List.filter_cons, isPlainAssistant]
  · rw [if_neg hg]
    unfold logAfterBatch
    rw [if_neg hg]
    rw [plainAssistantCount_append, plainAssistantCount_cons,
      plainAssistantCount_batchToolMsgs]
    simp [isPlainAssistant]

/-- Witness for C8: a single `web_search` call at step 0 with thinking
enabled appends exactly one reflection message. -/
theorem c8_reflection_gated_on_last_call_witness :
    ((⟨"hm", [{ id := "1", name := "web_search" }]⟩ : ModelResponse).tool_calls.isEmpty
        = false)
    ∧ plainAssistantCount (processToolPhase ⟨1, ["web_search"], true⟩
        (fun _ => [ToolOutcome.ok { success := true, tool_name := "web_search" }])
        (fun _ => Except.ok "thoughts") 0 initLoopState
        ⟨"hm", [{ id := "1", name := "web_search" }]⟩).log
      = plainAssistantCount initLoopState.log
        + (if reflectionGate ⟨1, ["web_search"], true⟩ 0
              (lastScheduledName (⟨"hm", [{ id := "1", name := "web_search" }]⟩ : ModelResponse).tool_calls
                ((fun _ => [ToolOutcome.ok { success := true, tool_name := "web_search" }]) 0))
              (initLoopState.taskCompleted
                || batchCompleted (⟨"hm", [{ id := "1", name := "web_search" }]⟩ : ModelResponse).tool_calls
                    ((fun _ => [ToolOutcome.ok { success := true, tool_name := "web_search" }]) 0))
           then 1 else 0) :=
  ⟨rfl,
    c8_reflection_gated_on_last_call ⟨1, ["web_search"], true⟩
      (fun _ => [ToolOutcome.ok { success := true, tool_name := "web_search" }])
      (fun _ => Except.ok "thoughts") 0 initLoopState
      ⟨"hm", [{ id := "1", name := "web_search" }]⟩ "thoughts" rfl rfl (by decide)⟩

/-! ## Claim C9 -/

/-- C9: for every tool name outside the executor's allow-list and every
argument map, `execute_tool` fails with the distinguishable
`ToolExecutionError` ("is not allowed") before argument validation and
dispatch: the result is the error for *any* validator and *any*
dispatcher, and the side-effect trace is empty — no handler runs. -/
theorem c9_disallowed_tool_rejected {α β : Type} (available : List String)
    (validate : String → α → Except String Unit)
    (dispatch : String → α → Except String Envelope × List β)
    (tool_name : String) (args : α)
    (h : available.contains tool_name = false) :
    executeToolInner available validate dispatch tool_name args
      = (Except.error (notAllowedError tool_name), []) := by
  unfold executeToolInner
  rw [if_pos]
  rw [h]
  rfl

/-- Witness for C9: an executor restricted to `web_search` rejects
`run_subagent` regardless of validator and handlers. -/
theorem c9_disallowed_tool_rejected_witness :
    (["web_search"] : List String).contains "run_subagent" = false
    ∧ executeToolInner ["web_search"] (fun _ _ => Except.ok ())
        (fun _ _ => (Except.ok {}, ([] : List String))) "run_subagent" (0 : Nat)
      = (Except.error (notAllowedError "run_subagent"), []) :=
  ⟨by decide,
    c9_disallowed_tool_rejected ["web_search"] (fun _ _ => Except.ok ())
      (fun _ _ => (Except.ok {}, ([] : List String))) "run_subagent" (0 : Nat) (by decide)⟩

/-! ## Claim C10 -/

theorem mem_of_mem_dropWhile {α : Type} (p : α → Bool) :
    ∀ (l : List α) (c : α), c ∈ l.dropWhile p → c ∈ l := by
  intro l
  induction l with
  | nil => intro c h; simpa using h
  | cons a t ih =>
    intro c h
    rw [List.dropWhile_cons] at h
    by_cases hpa : p a = true
    · simp only [hpa, if_true] at h
      exact List.mem_cons_of_mem _ (ih c h)
    · simp only [hpa, Bool.false_eq_true, if_false] at h
      exact h

theorem mem_of_mem_stripDashUnderscore (l : List Char) (c : Char)
    (h : c ∈ stripDashUnderscore l) : c ∈ l := by
  unfold stripDashUnderscore at h
  rw [List.mem_reverse] at h
  have h2 := mem_of_mem_dropWhile _ _ _ h
  rw [List.mem_reverse] at h2
  exact mem_of_mem_dropWhile _ _ _ h2

/-- C10: for every caller-supplied identifier (including `None` and the
empty string) and a safe non-empty default, the filename component used
for artifact writes is non-empty and contains only ASCII letters,
digits, hyphen and underscore; a missing or empty identifier falls back
to the default component. -/
theorem c10_filename_component_safe (value : Option String) (dflt : String)
    (hd1 : dflt ≠ "") (hd2 : ∀ c ∈ dflt.data, isSafeFilenameChar c = true) :
    normalizeFilenameComponent value dflt ≠ ""
    ∧ (∀ c ∈ (normalizeFilenameComponent value dflt).data, isSafeFilenameChar c = true)
    ∧ normalizeFilenameComponent none dflt = dflt
    ∧ normalizeFilenameComponent (some "") dflt = dflt := by
  have main : normalizeFilenameComponent value dflt ≠ ""
      ∧ (∀ c ∈ (normalizeFilenameComponent value dflt).data,
          isSafeFilenameChar c = true) := by
    cases value with
    | none => exact ⟨hd1, hd2⟩
    | some s =>
      simp only [normalizeFilenameComponent]
      by_cases hse : (s == "") = true
      · rw [if_pos hse]
        exact ⟨hd1, hd2⟩
      · rw [if_neg hse]
        by_cases hemp : (stripDashUnderscore
            (s.data.map (fun c => if isSafeFilenameChar c then c else '-'))).isEmpty = true
        · rw [if_pos hemp]
          exact ⟨hd1, hd2⟩
        · rw [if_neg hemp]
          constructor
          · intro hcontra
            have hdata : (String.mk (stripDashUnderscore
                (s.data.map (fun c => if isSafeFilenameChar c then c else '-')))).data
                = ("" : String).data := by rw [hcontra]
            have hnil : stripDashUnderscore
                (s.data.map (fun c => if isSafeFilenameChar c then c else '-')) = [] := by
              simpa using hdata
            rw [hnil] at hemp
            exact hemp rfl
          · intro c hc
            have hc2 : c ∈ s.data.map (fun c => if isSafeFilenameChar c then c else '-') :=
              mem_of_mem_stripDashUnderscore _ c (by simpa using hc)
            obtain ⟨x, _, rfl⟩ := List.mem_map.mp hc2
            by_cases hsx : isSafeFilenameChar x = true
            · simpa [hsx] using hsx
            · simp [hsx]
              decide
  exact ⟨main.1, main.2, rfl, rfl⟩

/-- Witness for C10: a path-traversal-looking identifier with the
`sub_agent` default sanitizes to a safe non-empty component. -/
theorem c10_filename_component_safe_witness :
    normalizeFilenameComponent (some "../etc/pass wd!") "sub_agent" ≠ ""
    ∧ isSafeFilenameChar 'e' = true :=
  ⟨(c10_filename_component_safe (some "../etc/pass wd!") "sub_agent"
      (by decide) (by decide)).1,
    (c10_filename_component_safe (some "../etc/pass wd!") "sub_agent"
      (by decide) (by decide)).2.1 'e' (by decide)⟩

end DeepResearch
